import Mathlib

/-!
Verification of the sqlop core: the DDL schema extractor (`src/tools/ddl_parser.py`),
the dependency orderer (`DDLParser.get_generation_order`), and the synthetic data
generation planner / response reconciler (`src/tools/data_generator.py`).

The Python code is shallowly embedded: pure string manipulation is translated to
executable functions over `List Char` / `String`, the parser's table dictionary is an
insertion-ordered association list, `pandas` data frames are column-major `Frame`
values, JSON responses are a `Json` inductive, and an exception-raising method is a
function returning `Except` together with the (unchanged) mutable state.
-/

/-! ## String helpers mirroring the Python string operations -/

/-- The characters of a string. -/
def chars (s : String) : List Char := s.data

/-- Rebuild a string from its characters. -/
def ofChars (cs : List Char) : String := String.mk cs

/-- Whitespace test used by Python `str.strip()` / `str.split()`. -/
def isWs (c : Char) : Bool := c.isWhitespace

/-- Uppercase every character (Python `str.upper()` on ASCII identifiers). -/
def upperChars (cs : List Char) : List Char := cs.map Char.toUpper

/-- Lowercase every character (Python `str.lower()` on ASCII identifiers). -/
def lowerChars (cs : List Char) : List Char := cs.map Char.toLower

/-- Drop characters satisfying `p` from both ends (Python `str.strip(chars)`). -/
def stripWhile (p : Char → Bool) (cs : List Char) : List Char :=
  ((cs.dropWhile p).reverse.dropWhile p).reverse

/-- Python `str.strip()` (no arguments): strip whitespace from both ends. -/
def pyStrip (s : String) : String := ofChars (stripWhile isWs (chars s))

/-- Worker for Python `str.split()` with no separator: split on runs of
whitespace, dropping empty pieces.  `acc` holds the current word reversed. -/
def wordsAux : List Char → List Char → List String
  | [], acc => if acc = [] then [] else [ofChars acc.reverse]
  | c :: rest, acc =>
    if isWs c then
      if acc = [] then wordsAux rest [] else ofChars acc.reverse :: wordsAux rest []
    else wordsAux rest (c :: acc)

/-- Python `str.split()` with no separator. -/
def pySplitWs (s : String) : List String := wordsAux (chars s) []

/-- Python `str.split(",")`: split on every comma, keeping empty pieces. -/
def splitCommaAux : List Char → List Char → List String
  | [], acc => [ofChars acc.reverse]
  | c :: rest, acc =>
    if c = ',' then ofChars acc.reverse :: splitCommaAux rest []
    else splitCommaAux rest (c :: acc)

/-- Python `s.split(",")`. -/
def pySplitComma (s : String) : List String := splitCommaAux (chars s) []

/-- Python substring test `needle in hay` on character lists. -/
def isSubChars (needle : List Char) : List Char → Bool
  | [] => needle.isEmpty
  | c :: rest => needle.isPrefixOf (c :: rest) || isSubChars needle rest

/-! ## Data model (`Column`, `ForeignKey`, `Table` dataclasses) -/

/-- `Column` dataclass from `ddl_parser.py`. -/
structure Column where
  name : String
  data_type : String
  not_null : Bool := false
  primary_key : Bool := false
  default : Option String := none
  unique : Bool := false
deriving DecidableEq, Repr

/-- `ForeignKey` dataclass from `ddl_parser.py`. -/
structure ForeignKey where
  column : String
  referenced_table : String
  referenced_column : String
deriving DecidableEq, Repr

/-- `Table` dataclass from `ddl_parser.py`. -/
structure Table where
  name : String
  columns : List Column := []
  primary_keys : List String := []
  foreign_keys : List ForeignKey := []
deriving DecidableEq, Repr

/-- The parser's `self.tables` dictionary: an insertion-ordered map from
table name to `Table`. -/
abbrev TableMap := List (String × Table)

/-- The names (keys) of the table mapping, in insertion order. -/
def keysOf (tables : TableMap) : List String := tables.map Prod.fst

/-- Python dictionary write `m[k] = v`: replace the value in place when the key
exists, otherwise append at the end. -/
def setAssoc {α : Type} (m : List (String × α)) (k : String) (v : α) :
    List (String × α) :=
  if (m.map Prod.fst).contains k then
    m.map (fun p => if p.1 = k then (k, v) else p)
  else m ++ [(k, v)]

/-! ## `DDLParser._clean_identifier` -/

/-- Strip all leading/trailing occurrences of one character. -/
def stripChar (q : Char) (cs : List Char) : List Char :=
  stripWhile (fun c => c = q) cs

/-- `_clean_identifier`: `identifier.strip().strip('"').strip("'").strip("`")`. -/
def clean_identifier (s : String) : String :=
  ofChars (stripChar '`' (stripChar '\'' (stripChar '"' (stripWhile isWs (chars s)))))

/-! ## `DDLParser._split_by_comma` -/

/-- Worker for `_split_by_comma`: scan characters tracking parenthesis depth,
splitting at commas only at depth 0.  Depth is an integer because the Python
counter may go negative on unbalanced input. -/
def splitByCommaGo : List Char → Int → List Char → List String → List String
  | [], _, current, defs =>
    if current = [] then defs else defs ++ [ofChars current]
  | c :: rest, depth, current, defs =>
    if c = '(' then splitByCommaGo rest (depth + 1) (current ++ [c]) defs
    else if c = ')' then splitByCommaGo rest (depth - 1) (current ++ [c]) defs
    else if c = ',' then
      if depth = 0 then splitByCommaGo rest depth [] (defs ++ [ofChars current])
      else splitByCommaGo rest depth (current ++ [c]) defs
    else splitByCommaGo rest depth (current ++ [c]) defs

/-- `_split_by_comma` applied to the text between the outer parentheses of the
CREATE TABLE body. -/
def split_by_comma (content : String) : List String :=
  splitByCommaGo (chars content) 0 [] []

/-- Checks that every comma of the content sits at nonzero parenthesis depth,
tracking depth exactly as `splitByCommaGo` does. -/
def allCommasNested : List Char → Int → Bool
  | [], _ => true
  | c :: rest, depth =>
    if c = '(' then allCommasNested rest (depth + 1)
    else if c = ')' then allCommasNested rest (depth - 1)
    else if c = ',' then
      if depth = 0 then false else allCommasNested rest depth
    else allCommasNested rest depth

/-! ## `DDLParser._is_constraint_definition` -/

/-- The table-constraint keywords. -/
def constraintKeywords : List String :=
  ["PRIMARY KEY", "FOREIGN KEY", "UNIQUE", "CHECK", "CONSTRAINT"]

/-- `_is_constraint_definition`: does `definition.upper().strip()` start with a
constraint keyword? -/
def is_constraint_definition (definition : String) : Bool :=
  let du := stripWhile isWs (upperChars (chars definition))
  constraintKeywords.any (fun k => (chars k).isPrefixOf du)

/-! ## Regex scanners

The Python code uses three `re.search` patterns.  Each is deterministic (greedy
character classes followed by characters the class excludes), so a left-to-right
scanner matching at the first possible position is an exact translation. -/

/-- Match the literal `pat` (given uppercased) case-insensitively at the head,
returning the rest. -/
def matchCI : List Char → List Char → Option (List Char)
  | [], hay => some hay
  | _ :: _, [] => none
  | p :: ps, h :: hs => if h.toUpper = p then matchCI ps hs else none

/-- Regex `\s+`: require at least one whitespace character, consume the run. -/
def wsPlus : List Char → Option (List Char)
  | [] => none
  | c :: rest => if isWs c then some (rest.dropWhile isWs) else none

/-- Word character for regex `\w` (ASCII). -/
def isWordChar (c : Char) : Bool := c.isAlphanum || c = '_'

/-- Regex `\(([^)]+)\)` at the head (after optional whitespace already skipped):
returns the nonempty capture and the rest after the closing parenthesis. -/
def capParen : List Char → Option (List Char × List Char)
  | '(' :: r =>
    let cap := r.takeWhile (fun c => c != ')')
    match r.dropWhile (fun c => c != ')') with
    | ')' :: rest => if cap = [] then none else some (cap, rest)
    | _ => none
  | _ => none

/-- Regex `DEFAULT\s+([^\s,]+)` matched at the head position. -/
def defaultMatchAt (cs : List Char) : Option (List Char) :=
  match matchCI (chars "DEFAULT") cs with
  | none => none
  | some r1 =>
    match wsPlus r1 with
    | none => none
    | some r2 =>
      let cap := r2.takeWhile (fun c => !(isWs c) && c != ',')
      if cap = [] then none else some cap

/-- `re.search` for the DEFAULT pattern: first position where it matches. -/
def searchDefault : List Char → Option (List Char)
  | [] => none
  | c :: rest =>
    match defaultMatchAt (c :: rest) with
    | some cap => some cap
    | none => searchDefault rest

/-- Regex `PRIMARY\s+KEY\s*\(([^)]+)\)` matched at the head position. -/
def pkMatchAt (cs : List Char) : Option (List Char) :=
  match matchCI (chars "PRIMARY") cs with
  | none => none
  | some r1 =>
    match wsPlus r1 with
    | none => none
    | some r2 =>
      match matchCI (chars "KEY") r2 with
      | none => none
      | some r3 =>
        match capParen (r3.dropWhile isWs) with
        | some (cap, _) => some cap
        | none => none

/-- `re.search` for the PRIMARY KEY pattern. -/
def searchPK : List Char → Option (List Char)
  | [] => none
  | c :: rest =>
    match pkMatchAt (c :: rest) with
    | some cap => some cap
    | none => searchPK rest

/-- Regex `FOREIGN\s+KEY\s*\(([^)]+)\)\s*REFERENCES\s+(\w+)\s*\(([^)]+)\)`
matched at the head position; returns the three captures. -/
def fkMatchAt (cs : List Char) : Option (List Char × List Char × List Char) :=
  match matchCI (chars "FOREIGN") cs with
  | none => none
  | some r1 =>
    match wsPlus r1 with
    | none => none
    | some r2 =>
      match matchCI (chars "KEY") r2 with
      | none => none
      | some r3 =>
        match capParen (r3.dropWhile isWs) with
        | none => none
        | some (cap1, r4) =>
          match matchCI (chars "REFERENCES") (r4.dropWhile isWs) with
          | none => none
          | some r5 =>
            match wsPlus r5 with
            | none => none
            | some r6 =>
              let cap2 := r6.takeWhile isWordChar
              if cap2 = [] then none
              else
                match capParen ((r6.dropWhile isWordChar).dropWhile isWs) with
                | none => none
                | some (cap3, _) => some (cap1, cap2, cap3)

/-- `re.search` for the FOREIGN KEY pattern. -/
def searchFK : List Char → Option (List Char × List Char × List Char)
  | [] => none
  | c :: rest =>
    match fkMatchAt (c :: rest) with
    | some caps => some caps
    | none => searchFK rest

/-! ## `DDLParser._parse_column` -/

/-- `_parse_column`: returns `none` (Python `None`, silently skipped) when the
definition has fewer than two whitespace-delimited tokens. -/
def parse_column (definition : String) : Option Column :=
  match pySplitWs (pyStrip definition) with
  | p0 :: p1 :: _ =>
    let defUpper := upperChars (chars definition)
    some
      { name := clean_identifier p0
      , data_type := ofChars (upperChars (chars p1))
      , not_null := isSubChars (chars "NOT NULL") defUpper
      , primary_key := isSubChars (chars "PRIMARY KEY") defUpper
      , default := (searchDefault (chars definition)).map
          (fun cap => ofChars (stripWhile (fun c => c = '\'' || c = '"') cap))
      , unique := isSubChars (chars " UNIQUE") defUpper
          || (chars "UNIQUE").isSuffixOf defUpper }
  | _ => none

/-! ## `DDLParser._parse_constraint` and the two constraint parsers -/

/-- `_parse_primary_key_constraint`: extend `table.primary_keys` with the
cleaned, comma-split capture of the PRIMARY KEY pattern. -/
def parse_primary_key_constraint (definition : String) (t : Table) : Table :=
  match searchPK (chars definition) with
  | none => t
  | some cap =>
    let cols := (pySplitComma (ofChars cap)).map (fun c => clean_identifier (pyStrip c))
    { t with primary_keys := t.primary_keys ++ cols }

/-- `_parse_foreign_key_constraint`: append one `ForeignKey` from the three
captures of the FOREIGN KEY pattern. -/
def parse_foreign_key_constraint (definition : String) (t : Table) : Table :=
  match searchFK (chars definition) with
  | none => t
  | some (cap1, cap2, cap3) =>
    { t with foreign_keys := t.foreign_keys ++
        [ { column := clean_identifier (pyStrip (ofChars cap1))
          , referenced_table := clean_identifier (pyStrip (ofChars cap2))
          , referenced_column := clean_identifier (pyStrip (ofChars cap3)) } ] }

/-- `_parse_constraint`: dispatch on whether the uppercased, stripped definition
contains `PRIMARY KEY` or `FOREIGN KEY`. -/
def parse_constraint (definition : String) (t : Table) : Table :=
  let du := stripWhile isWs (upperChars (chars definition))
  if isSubChars (chars "PRIMARY KEY") du then parse_primary_key_constraint definition t
  else if isSubChars (chars "FOREIGN KEY") du then parse_foreign_key_constraint definition t
  else t

/-! ## `DDLParser._parse_column_definitions` and `_parse_create_table` -/

/-- `_parse_column_definitions`: split the body by top-level commas and fold
each definition into the table, silently skipping unparseable columns. -/
def parse_column_definitions (content : String) (table : Table) : Table :=
  (split_by_comma content).foldl
    (fun t d =>
      let ds := pyStrip d
      if ds = "" then t
      else if is_constraint_definition ds then parse_constraint ds t
      else
        match parse_column ds with
        | some c => { t with columns := t.columns ++ [c] }
        | none => t)
    table

/-- Abstraction of the `sqlparse` token stream a CREATE statement presents to
`_parse_create_table`: identifier tokens (with their resolved name), plain name
tokens, parenthesis groups (carrying the text between the outer parentheses),
and anything else. -/
inductive SqlTok where
  | ident (name : String)
  | nameTok (s : String)
  | paren (content : String)
  | other (s : String)
deriving DecidableEq, Repr

/-- The first `Identifier` or `Name` token gives the table name. -/
def firstTableName : List SqlTok → Option String
  | [] => none
  | .ident n :: _ => some (clean_identifier n)
  | .nameTok s :: _ => some (clean_identifier s)
  | _ :: rest => firstTableName rest

/-- The first `Parenthesis` token holds the column definitions. -/
def firstParenContent : List SqlTok → Option String
  | [] => none
  | .paren c :: _ => some c
  | _ :: rest => firstParenContent rest

/-- `_parse_create_table`: `none` means the statement contributed no table
(`if not table_name: return`, which also fires on an empty cleaned name).
A statement with a name but no parenthesis yields a table with no columns. -/
def parse_create_table (toks : List SqlTok) : Option Table :=
  match firstTableName toks with
  | none => none
  | some tname =>
    if tname = "" then none
    else
      let base : Table := { name := tname }
      match firstParenContent toks with
      | none => some base
      | some content => some (parse_column_definitions content base)

/-- Mark the first column whose lowercased name matches the primary-key name
(the `break` in the linking loop of `parse`). -/
def markPK (pk : String) : List Column → List Column
  | [] => []
  | c :: rest =>
    if lowerChars (chars c.name) = lowerChars (chars pk) then
      { c with primary_key := true } :: rest
    else c :: markPK pk rest

/-- The primary-key linking pass at the end of `parse`. -/
def linkPK (t : Table) : Table :=
  { t with columns := t.primary_keys.foldl (fun cols pk => markPK pk cols) t.columns }

/-- A parsed statement as `sqlparse` hands it over: its `get_type()` string and
its token list. -/
structure SqlStatement where
  stype : String
  tokens : List SqlTok
deriving DecidableEq, Repr

/-- `DDLParser.parse`: fold the CREATE statements into the table map, then link
primary keys to columns.  Total: malformed statements degrade to partial
results, never to an error. -/
def parse (stmts : List SqlStatement) : TableMap :=
  let m := stmts.foldl
    (fun m st =>
      if st.stype = "CREATE" then
        match parse_create_table st.tokens with
        | some t => setAssoc m t.name t
        | none => m
      else m)
    []
  m.map (fun p => (p.1, linkPK p.2))

/-! ## `DDLParser.get_generation_order` -/

/-- The dependency list of one table: its foreign keys whose referenced table
is present in the mapping, in declaration order (the `dependencies` dict). -/
def depsOf (tables : TableMap) (name : String) : List String :=
  match List.lookup name tables with
  | some t =>
    (t.foreign_keys.filter
      (fun fk => (keysOf tables).contains fk.referenced_table)).map
      (fun fk => fk.referenced_table)
  | none => []

/-- The mutable state of the topological traversal: the `visited` set and the
output `order` list. -/
structure VisitState where
  visited : List String
  order : List String
deriving DecidableEq, Repr

/-- The recursive `visit` closure, with explicit fuel bounding the recursion
depth (the Python recursion terminates because every nested call first adds an
unvisited name to `visited`; `keysOf tables |>.length + 1` fuel is enough). -/
def visit (tables : TableMap) : Nat → String → VisitState → VisitState
  | 0, _, st => st
  | fuel + 1, name, st =>
    if name ∈ st.visited then st
    else
      let st1 : VisitState := ⟨name :: st.visited, st.order⟩
      let st2 := (depsOf tables name).foldl (fun s dep => visit tables fuel dep s) st1
      ⟨st2.visited, st2.order ++ [name]⟩

/-- Visiting a list of names in sequence (both the dependency fold inside
`visit` and the top-level loop over all tables). -/
def visitList (tables : TableMap) (fuel : Nat) (names : List String)
    (st : VisitState) : VisitState :=
  names.foldl (fun s n => visit tables fuel n s) st

/-- `get_generation_order`: depth-first postorder over the dependency edges,
started once per table in insertion order. -/
def get_generation_order (tables : TableMap) : List String :=
  (visitList tables ((keysOf tables).length + 1) (keysOf tables) ⟨[], []⟩).order

/-! ## JSON values and data frames (`data_generator.py`) -/

/-- JSON values as returned by the generation backend. -/
inductive Json where
  | arr : List Json → Json
  | obj : List (String × Json) → Json
  | str : String → Json
  | num : Int → Json
  | jbool : Bool → Json
  | null : Json

/-- The fields of a row record; non-objects contribute no fields (in pandas a
non-dict row yields columns disjoint from the schema, so every schema column is
reindexed to null, which is the same observable outcome). -/
def asObj : Json → List (String × Json)
  | .obj fields => fields
  | _ => []

/-- A pandas data frame, column-major: the row count and the named columns in
order (each value list has `nrows` entries for frames built by this model). -/
structure Frame where
  nrows : Nat
  cols : List (String × List Json)

/-- The column labels of a frame (`df.columns`). -/
def frameColNames (f : Frame) : List String := f.cols.map Prod.fst

/-- A frame's column by name, defaulting to a null-filled column of the right
length when absent (how `pd.concat` aligns frames with missing columns). -/
def getColD (f : Frame) (c : String) : List Json :=
  match List.lookup c f.cols with
  | some vs => vs
  | none => List.replicate f.nrows Json.null

/-- First-occurrence deduplication of column labels. -/
def dedupFirst : List String → List String → List String
  | [], _ => []
  | x :: xs, seen =>
    if x ∈ seen then dedupFirst xs seen else x :: dedupFirst xs (x :: seen)

/-- `pd.concat(frames, ignore_index=True)`: stack rows, aligning columns by
label in first-appearance order, filling missing columns with nulls. -/
def concatFrames (fs : List Frame) : Frame :=
  { nrows := (fs.map Frame.nrows).sum
  , cols := (dedupFirst ((fs.map frameColNames).flatten) []).map
      (fun c => (c, (fs.map (fun f => getColD f c)).flatten)) }

/-- `df[name] = values`: overwrite the column when present, append otherwise. -/
def setCol (f : Frame) (c : String) (vs : List Json) : Frame :=
  { nrows := f.nrows
  , cols :=
      if (f.cols.map Prod.fst).contains c then
        f.cols.map (fun p => if p.1 = c then (c, vs) else p)
      else f.cols ++ [(c, vs)] }

/-! ## `DataGenerator._parse_generation_response` (the response reconciler) -/

/-- The envelope unwrapping: a bare array is taken as is; an object is probed
first for the table-name key, then for the `data` key; anything else is
rejected. -/
def unwrapEnvelope (response : Json) (name : String) : Option Json :=
  match response with
  | .arr rows => some (.arr rows)
  | .obj fields =>
    match List.lookup name fields with
    | some v => some v
    | none => List.lookup "data" fields
  | _ => none

/-- Build the reconciled frame from the unwrapped row list: exactly the table's
columns in declared order; a cell is the row's value under that column name, or
null when the row lacks the key (missing columns are filled with nulls, extra
fields are dropped by the reindexing `df = df[[col.name ...]]`). -/
def rowsToFrame (table : Table) (rows : List Json) : Frame :=
  { nrows := rows.length
  , cols := table.columns.map
      (fun c => (c.name, rows.map (fun r => (List.lookup c.name (asObj r)).getD Json.null))) }

/-- `_parse_generation_response`: unwrap the envelope, require an array
payload, reconcile against the schema; raises `ValueError` otherwise. -/
def parse_generation_response (response : Json) (table : Table) :
    Except String Frame :=
  match unwrapEnvelope response table.name with
  | none => .error "Unexpected response format. Expected list or dict with table name key."
  | some data =>
    match data with
    | .arr rows => .ok (rowsToFrame table rows)
    | _ => .error "Expected list of rows"

/-! ## `DataGenerator._generate_table_data` (the generation planner) -/

/-- The fixed batching constant `BATCH_SIZE = 20`. -/
def BATCH_SIZE : Nat := 20

/-- The `while remaining > 0` loop computing the batch sizes, with fuel equal
to the initial remaining count (each iteration removes at least one row). -/
def batchSizesGo : Nat → Nat → List Nat
  | _, 0 => []
  | 0, _ + 1 => []
  | fuel + 1, r + 1 =>
    let b := min (r + 1) BATCH_SIZE
    b :: batchSizesGo fuel (r + 1 - b)

/-- The sequence of batch sizes issued for a multi-batch generation. -/
def batchSizes (rows : Nat) : List Nat := batchSizesGo rows rows

/-- One step of the primary-key renumbering loop: `df[col.name] = range(1, len(df)+1)`
for a primary-key column present in the frame. -/
def stepRenumber (acc : Frame) (col : Column) : Frame :=
  if col.primary_key && (acc.cols.map Prod.fst).contains col.name then
    setCol acc col.name ((List.range acc.nrows).map (fun i => Json.num (i + 1)))
  else acc

/-- The primary-key renumbering loop over the table's columns. -/
def renumber_pks (table : Table) (df : Frame) : Frame :=
  table.columns.foldl stepRenumber df

/-- `_generate_table_data`.  `backend i s` stands for the frame produced by the
i-th sequential `_generate_batch` call when asked for `s` rows (the LLM call is
the excluded collaborator, so its per-call results are a parameter).  A single
batch is returned untouched; multiple batches are concatenated in order and the
primary-key columns present in the result are renumbered `1..N`. -/
def generate_table_data (table : Table) (rows : Nat)
    (backend : Nat → Nat → Frame) : Frame :=
  if rows ≤ BATCH_SIZE then backend 0 rows
  else
    let frames := (batchSizes rows).enum.map (fun p => backend p.1 p.2)
    renumber_pks table (concatFrames frames)

/-! ## `DataGenerator.regenerate_table` -/

/-- `regenerate_table`: raising `ValueError` for an unknown table is modelled
by returning the error together with the untouched `generated_data` state; on
success the state gains the regenerated frame under the table's name. -/
def regenerate_table (generated_data : List (String × Frame)) (table_name : String)
    (tables : TableMap) (rows : Nat) (backend : Nat → Nat → Frame) :
    Except String Frame × List (String × Frame) :=
  match List.lookup table_name tables with
  | none => (.error ("Table " ++ table_name ++ " not found in schema"), generated_data)
  | some table =>
    let df := generate_table_data table rows backend
    (.ok df, setAssoc generated_data table_name df)

/-! ## Helper lemmas -/

/-- A key absent from the key list of an association list has no lookup. -/
theorem lookup_eq_none_of_not_mem_keys {α : Type} (k : String)
    (m : List (String × α)) (h : k ∉ m.map Prod.fst) : List.lookup k m = none := by
  induction m with
  | nil => rfl
  | cons p rest ih =>
    simp only [List.map_cons, List.mem_cons] at h
    push_neg at h
    simp [List.lookup, ih h.2, beq_eq_false_iff_ne.mpr h.1]

/-! ## C7: regenerating an unknown table fails fast -/

/-- C7: for every table name absent from the schema mapping, `regenerate_table`
fails immediately with an error, leaves the accumulated generated dataset
unchanged, and never consults the generation backend (its result is the same
for every backend). -/
theorem regenerate_unknown_table_fail_fast
    (generated_data : List (String × Frame)) (table_name : String)
    (tables : TableMap) (rows : Nat) (backend backend' : Nat → Nat → Frame)
    (h : table_name ∉ keysOf tables) :
    regenerate_table generated_data table_name tables rows backend =
      (.error ("Table " ++ table_name ++ " not found in schema"), generated_data)
    ∧ regenerate_table generated_data table_name tables rows backend =
        regenerate_table generated_data table_name tables rows backend' := by
  have hl : List.lookup table_name tables = none :=
    lookup_eq_none_of_not_mem_keys _ _ h
  constructor <;> simp [regenerate_table, hl]

/-- Witness for C7 at a concrete unknown table name. -/
theorem regenerate_unknown_table_fail_fast_witness :
    regenerate_table [] "users" [("orders", { name := "orders" })] 5
        (fun _ s => { nrows := s, cols := [] }) =
      (.error "Table users not found in schema", []) :=
  (regenerate_unknown_table_fail_fast [] "users" [("orders", { name := "orders" })] 5
    (fun _ s => { nrows := s, cols := [] }) (fun _ s => { nrows := s, cols := [] })
    (by decide)).1

/-! ## C5: envelope equivalence and malformed-response failure -/

/-- C5: a bare array, a `data`-keyed object and a table-name-keyed object
reconcile to identical outputs; every response of any other shape, or whose
unwrapped payload is not an array, fails with a malformed-response error. -/
theorem envelope_equivalence (table : Table) (rows : List Json) :
    (parse_generation_response (Json.arr rows) table = .ok (rowsToFrame table rows)
     ∧ parse_generation_response (Json.obj [(table.name, Json.arr rows)]) table
         = .ok (rowsToFrame table rows)
     ∧ parse_generation_response (Json.obj [("data", Json.arr rows)]) table
         = .ok (rowsToFrame table rows))
    ∧ (∀ fields, List.lookup table.name fields = none →
         List.lookup "data" fields = none →
         parse_generation_response (Json.obj fields) table
           = .error "Unexpected response format. Expected list or dict with table name key.")
    ∧ (∀ s, parse_generation_response (Json.str s) table
         = .error "Unexpected response format. Expected list or dict with table name key.")
    ∧ (∀ n, parse_generation_response (Json.num n) table
         = .error "Unexpected response format. Expected list or dict with table name key.")
    ∧ (∀ b, parse_generation_response (Json.jbool b) table
         = .error "Unexpected response format. Expected list or dict with table name key.")
    ∧ (parse_generation_response Json.null table
         = .error "Unexpected response format. Expected list or dict with table name key.")
    ∧ (∀ response v, unwrapEnvelope response table.name = some v →
         (∀ rs, v ≠ Json.arr rs) →
         parse_generation_response response table = .error "Expected list of rows") := by
  refine ⟨⟨?_, ?_, ?_⟩, ?_, ?_, ?_, ?_, ?_, ?_⟩
  · simp [parse_generation_response, unwrapEnvelope]
  · simp [parse_generation_response, unwrapEnvelope, List.lookup]
  · by_cases h : table.name = "data"
    · simp [parse_generation_response, unwrapEnvelope, List.lookup, h]
    · simp [parse_generation_response, unwrapEnvelope, List.lookup,
        beq_eq_false_iff_ne.mpr h]
  · intro fields h1 h2
    simp [parse_generation_response, unwrapEnvelope, h1, h2]
  · intro s; rfl
  · intro n; rfl
  · intro b; rfl
  · rfl
  · intro response v hu hne
    unfold parse_generation_response
    rw [hu]
    cases v with
    | arr rs => exact absurd rfl (hne rs)
    | obj fields => rfl
    | str s => rfl
    | num n => rfl
    | jbool b => rfl
    | null => rfl

/-- Witness for C5 instantiating the conditional parts at concrete inputs. -/
theorem envelope_equivalence_witness :
    parse_generation_response (Json.obj [("other", Json.arr [])]) { name := "users" }
      = .error "Unexpected response format. Expected list or dict with table name key."
    ∧ parse_generation_response (Json.obj [("users", Json.num 3)]) { name := "users" }
      = .error "Expected list of rows" :=
  ⟨(envelope_equivalence { name := "users" } []).2.1 [("other", Json.arr [])] rfl rfl,
   (envelope_equivalence { name := "users" } []).2.2.2.2.2.2 (Json.obj [("users", Json.num 3)])
     (Json.num 3) rfl (fun _ h => Json.noConfusion h)⟩

/-! ## C10: the table-name envelope takes precedence over the data envelope -/

/-- C10: when the response object carries both the table-name key and the
`data` key (in either order), reconciliation uses the rows stored under the
table-name key and ignores the `data` key. -/
theorem table_name_envelope_precedence (table : Table) (rows1 rows2 : List Json)
    (hne : table.name ≠ "data") :
    parse_generation_response
        (Json.obj [(table.name, Json.arr rows1), ("data", Json.arr rows2)]) table
      = .ok (rowsToFrame table rows1)
    ∧ parse_generation_response
        (Json.obj [("data", Json.arr rows2), (table.name, Json.arr rows1)]) table
      = .ok (rowsToFrame table rows1) := by
  constructor
  · simp [parse_generation_response, unwrapEnvelope, List.lookup]
  · simp [parse_generation_response, unwrapEnvelope, List.lookup,
      beq_eq_false_iff_ne.mpr hne]

/-- Witness for C10 at a concrete table and concrete row lists. -/
theorem table_name_envelope_precedence_witness :
    parse_generation_response
        (Json.obj [("data", Json.arr []), ("users", Json.arr [Json.obj [("id", Json.num 1)]])])
        { name := "users", columns := [{ name := "id", data_type := "INTEGER" }] }
      = .ok (rowsToFrame { name := "users", columns := [{ name := "id", data_type := "INTEGER" }] }
          [Json.obj [("id", Json.num 1)]]) :=
  (table_name_envelope_precedence
    { name := "users", columns := [{ name := "id", data_type := "INTEGER" }] }
    [Json.obj [("id", Json.num 1)]] [] (by decide)).2

/-! ## C6: missing-column fill and schema-ordered output -/

/-- Looking up a column name in the reconciled frame finds the value list
computed from that name, whenever some schema column bears the name. -/
theorem lookup_map_name (cols : List Column) (f : String → List Json)
    (name : String) (h : name ∈ cols.map Column.name) :
    List.lookup name (cols.map (fun c => (c.name, f c.name))) = some (f name) := by
  induction cols with
  | nil => simp at h
  | cons c rest ih =>
    by_cases hc : name = c.name
    · simp [List.lookup, hc]
    · have hr : name ∈ rest.map Column.name := by
        simp only [List.map_cons, List.mem_cons] at h
        tauto
      simp [List.lookup, beq_eq_false_iff_ne.mpr hc, ih hr]

/-- C6: for a well-formed response, reconciliation succeeds (missing columns
are a warning, not fatal), the output's columns are exactly the table's columns
in declared order (extra fields dropped), and a schema column absent from every
returned record comes back as a column of nulls. -/
theorem reconcile_missing_columns (response : Json) (table : Table)
    (rows : List Json)
    (hun : unwrapEnvelope response table.name = some (Json.arr rows)) :
    parse_generation_response response table = .ok (rowsToFrame table rows)
    ∧ frameColNames (rowsToFrame table rows) = table.columns.map Column.name
    ∧ ∀ col ∈ table.columns,
        (∀ r ∈ rows, List.lookup col.name (asObj r) = none) →
        List.lookup col.name (rowsToFrame table rows).cols
          = some (List.replicate rows.length Json.null) := by
  refine ⟨?_, ?_, ?_⟩
  · unfold parse_generation_response
    rw [hun]
  · simp [frameColNames, rowsToFrame]
  · intro col hmem habs
    have hname : col.name ∈ table.columns.map Column.name :=
      List.mem_map_of_mem Column.name hmem
    have := lookup_map_name table.columns
      (fun nm => rows.map (fun r => (List.lookup nm (asObj r)).getD Json.null))
      col.name hname
    simp only [rowsToFrame]
    rw [this]
    congr 1
    have hlen : (rows.map (fun r => (List.lookup col.name (asObj r)).getD Json.null)).length
        = rows.length := by simp
    refine List.eq_replicate_iff.mpr ⟨hlen, ?_⟩
    intro b hb
    simp only [List.mem_map] at hb
    obtain ⟨r, hr, rfl⟩ := hb
    rw [habs r hr]
    rfl

/-- Witness for C6: a two-row response whose records omit the declared column
`email`; the reconciled output is the schema-ordered frame with `email` null. -/
theorem reconcile_missing_columns_witness :
    parse_generation_response
        (Json.arr [Json.obj [("id", Json.num 1)], Json.obj [("id", Json.num 2)]])
        { name := "users"
        , columns := [{ name := "id", data_type := "INTEGER" },
                      { name := "email", data_type := "TEXT" }] }
      = .ok (rowsToFrame
          { name := "users"
          , columns := [{ name := "id", data_type := "INTEGER" },
                        { name := "email", data_type := "TEXT" }] }
          [Json.obj [("id", Json.num 1)], Json.obj [("id", Json.num 2)]])
    ∧ List.lookup "email"
        (rowsToFrame
          { name := "users"
          , columns := [{ name := "id", data_type := "INTEGER" },
                        { name := "email", data_type := "TEXT" }] }
          [Json.obj [("id", Json.num 1)], Json.obj [("id", Json.num 2)]]).cols
      = some (List.replicate 2 Json.null) := by
  have h := reconcile_missing_columns
    (Json.arr [Json.obj [("id", Json.num 1)], Json.obj [("id", Json.num 2)]])
    { name := "users"
    , columns := [{ name := "id", data_type := "INTEGER" },
                  { name := "email", data_type := "TEXT" }] }
    [Json.obj [("id", Json.num 1)], Json.obj [("id", Json.num 2)]] rfl
  refine ⟨h.1, ?_⟩
  have := h.2.2 { name := "email", data_type := "TEXT" } (by simp)
    (by intro r hr; fin_cases hr <;> rfl)
  exact this

/-! ## C4: fail-soft parsing -/

/-- C4: parsing never errors, it degrades to partial results.  A CREATE TABLE
statement whose token stream has a table name but no parenthesized column body
yields a table with zero columns (not an error), and a column definition with
fewer than two whitespace-delimited tokens is skipped silently (`parse_column`
returns `none`, and the definitions fold drops it).  `parse` itself is a total
function into a table mapping: the caller detects failure by checking table and
column counts. -/
theorem parse_fail_soft :
    (∀ toks tname, firstTableName toks = some tname → tname ≠ "" →
       firstParenContent toks = none →
       parse_create_table toks = some { name := tname })
    ∧ (∀ s, (pySplitWs (pyStrip s)).length < 2 → parse_column s = none) := by
  constructor
  · intro toks tname h1 h2 h3
    simp [parse_create_table, h1, h2, h3]
  · intro s hlen
    unfold parse_column
    cases h : pySplitWs (pyStrip s) with
    | nil => rfl
    | cons a t =>
      cases t with
      | nil => rfl
      | cons b t' =>
        rw [h] at hlen
        simp only [List.length_cons] at hlen
        omega

/-- Witness for C4: a CREATE statement with only a name token parses to a
zero-column table, and the one-token definition `id` is skipped. -/
theorem parse_fail_soft_witness :
    parse_create_table [SqlTok.nameTok "users"] = some { name := "users" }
    ∧ parse_column "id" = none :=
  ⟨parse_fail_soft.1 [SqlTok.nameTok "users"] "users" rfl (by decide) rfl,
   parse_fail_soft.2 "id" (by decide)⟩

/-! ## C8: depth-tracking comma split -/

/-- When every comma sits inside nested parentheses, the splitter's scan never
splits: it just accumulates the whole content. -/
theorem splitByCommaGo_nested (cs : List Char) :
    ∀ (d : Int) (current : List Char) (defs : List String),
      allCommasNested cs d = true →
      splitByCommaGo cs d current defs =
        if current ++ cs = [] then defs else defs ++ [ofChars (current ++ cs)] := by
  induction cs with
  | nil =>
    intro d current defs _
    simp [splitByCommaGo]
  | cons c rest ih =>
    intro d current defs h
    have hne : current ++ c :: rest ≠ [] := by simp
    rw [if_neg hne]
    by_cases h1 : c = '('
    · rw [splitByCommaGo, if_pos h1]
      rw [allCommasNested, if_pos h1] at h
      rw [ih (d + 1) (current ++ [c]) defs h]
      have hne2 : (current ++ [c]) ++ rest ≠ [] := by simp
      rw [if_neg hne2]
      simp
    · by_cases h2 : c = ')'
      · rw [splitByCommaGo, if_neg h1, if_pos h2]
        rw [allCommasNested, if_neg h1, if_pos h2] at h
        rw [ih (d - 1) (current ++ [c]) defs h]
        have hne2 : (current ++ [c]) ++ rest ≠ [] := by simp
        rw [if_neg hne2]
        simp
      · by_cases h3 : c = ','
        · rw [allCommasNested, if_neg h1, if_neg h2, if_pos h3] at h
          by_cases h4 : d = 0
          · rw [if_pos h4] at h
            exact absurd h (by simp)
          · rw [if_neg h4] at h
            rw [splitByCommaGo, if_neg h1, if_neg h2, if_pos h3, if_neg h4]
            rw [ih d (current ++ [c]) defs h]
            have hne2 : (current ++ [c]) ++ rest ≠ [] := by simp
            rw [if_neg hne2]
            simp
        · rw [splitByCommaGo, if_neg h1, if_neg h2, if_neg h3]
          rw [allCommasNested, if_neg h1, if_neg h2, if_neg h3] at h
          rw [ih d (current ++ [c]) defs h]
          have hne2 : (current ++ [c]) ++ rest ≠ [] := by simp
          rw [if_neg hne2]
          simp

/-- C8: commas nested inside parentheses never split a definition: any nonempty
body all of whose commas are parenthesized splits into exactly that one
definition, and the body `price DECIMAL(10,2) NOT NULL` parses to exactly one
column named `price` with data type `DECIMAL(10,2)` and not-null set. -/
theorem comma_depth_parsing :
    (∀ content : String, chars content ≠ [] →
       allCommasNested (chars content) 0 = true →
       split_by_comma content = [content])
    ∧ (parse_column_definitions "price DECIMAL(10,2) NOT NULL" { name := "t" }).columns
        = [{ name := "price", data_type := "DECIMAL(10,2)", not_null := true,
             primary_key := false, default := none, unique := false }]
    ∧ (parse_column "price DECIMAL(10,2) NOT NULL").map Column.data_type
        = some "DECIMAL(10,2)" := by
  refine ⟨?_, by decide, by decide⟩
  intro content hne h
  rw [split_by_comma, splitByCommaGo_nested (chars content) 0 [] [] h]
  simp only [List.nil_append, if_neg hne]
  have : ofChars (chars content) = content := rfl
  rw [this]

/-- Witness for C8: the general no-top-level-comma conclusion applied to the
concrete body with a comma inside `DECIMAL(10,2)`. -/
theorem comma_depth_parsing_witness :
    split_by_comma "price DECIMAL(10,2) NOT NULL" = ["price DECIMAL(10,2) NOT NULL"] :=
  comma_depth_parsing.1 "price DECIMAL(10,2) NOT NULL" (by decide) (by decide)

/-! ## C9: the UNIQUE flag

The code sets `unique` when `" UNIQUE"` occurs in the uppercased definition or
when the uppercased definition merely ends with the letters `UNIQUE` — the
trailing check has no word boundary, so a trailing occurrence that is the
suffix of a longer word still sets the flag, contradicting the claim. -/

/-- Counterexample to C9 as stated: in `a XUNIQUE` the letters `UNIQUE` occur
only as the suffix of the longer word `XUNIQUE` (there is no space-preceded
occurrence), yet the parsed column has `unique = true`. -/
theorem unique_suffix_counterexample :
    (parse_column "a XUNIQUE").map Column.unique = some true
    ∧ isSubChars (chars " UNIQUE") (upperChars (chars "a XUNIQUE")) = false := by
  constructor <;> decide

/-- Substring containment is equivalent to an infix decomposition. -/
theorem isSubChars_iff (needle hay : List Char) :
    isSubChars needle hay = true ↔ ∃ pre suf, hay = pre ++ needle ++ suf := by
  induction hay with
  | nil =>
    simp only [isSubChars, List.isEmpty_iff]
    constructor
    · intro h
      exact ⟨[], [], by simp [h]⟩
    · rintro ⟨pre, suf, hps⟩
      rcases List.append_eq_nil.mp hps.symm with ⟨h1, h2⟩
      rcases List.append_eq_nil.mp h1 with ⟨_, h3⟩
      exact h3
  | cons c rest ih =>
    simp only [isSubChars, Bool.or_eq_true, ih]
    constructor
    · rintro (hp | ⟨pre, suf, rfl⟩)
      · obtain ⟨t, ht⟩ := List.isPrefixOf_iff_prefix.mp hp
        exact ⟨[], t, by simp [ht]⟩
      · exact ⟨c :: pre, suf, rfl⟩
    · rintro ⟨pre, suf, hps⟩
      cases pre with
      | nil =>
        left
        exact List.isPrefixOf_iff_prefix.mpr ⟨suf, by simpa using hps.symm⟩
      | cons c' pre' =>
        right
        simp only [List.cons_append, List.cons.injEq] at hps
        exact ⟨pre', suf, hps.2⟩

/-- C9 amended: the parser sets the `unique` flag exactly when the uppercased
definition contains a space-preceded occurrence of `UNIQUE`, or ends with the
letters `UNIQUE` — including when that trailing occurrence is the suffix of a
longer word (the trailing check has no word boundary). -/
theorem unique_flag_characterization (s : String) (col : Column)
    (h : parse_column s = some col) :
    col.unique = true ↔
      (∃ pre suf, upperChars (chars s) = pre ++ chars " UNIQUE" ++ suf)
      ∨ (∃ pre, upperChars (chars s) = pre ++ chars "UNIQUE") := by
  unfold parse_column at h
  cases hm : pySplitWs (pyStrip s) with
  | nil => rw [hm] at h; exact absurd h (by simp)
  | cons p0 t =>
    cases t with
    | nil => rw [hm] at h; exact absurd h (by simp)
    | cons p1 t' =>
      rw [hm] at h
      simp only [Option.some.injEq] at h
      have hu : col.unique =
          (isSubChars (chars " UNIQUE") (upperChars (chars s))
            || (chars "UNIQUE").isSuffixOf (upperChars (chars s))) := by
        rw [← h]
      rw [hu]
      simp only [Bool.or_eq_true]
      constructor
      · rintro (h1 | h2)
        · exact Or.inl ((isSubChars_iff _ _).mp h1)
        · obtain ⟨t, ht⟩ := List.isSuffixOf_iff_suffix.mp h2
          exact Or.inr ⟨t, ht.symm⟩
      · rintro (⟨pre, suf, hps⟩ | ⟨pre, hps⟩)
        · exact Or.inl ((isSubChars_iff _ _).mpr ⟨pre, suf, hps⟩)
        · exact Or.inr (List.isSuffixOf_iff_suffix.mpr ⟨pre, hps.symm⟩)

/-- Witness for the amended C9 at a definition with a standalone trailing
UNIQUE: the flag is set and the space-preceded decomposition exists. -/
theorem unique_flag_characterization_witness :
    ({ name := "email", data_type := "TEXT", not_null := false, primary_key := false,
       default := none, unique := true } : Column).unique = true ↔
      (∃ pre suf, upperChars (chars "email TEXT UNIQUE") = pre ++ chars " UNIQUE" ++ suf)
      ∨ (∃ pre, upperChars (chars "email TEXT UNIQUE") = pre ++ chars "UNIQUE") :=
  unique_flag_characterization "email TEXT UNIQUE" _ (by decide)

/-! ## C2: batching and primary-key renumbering -/

/-- Closed form of the batching loop: full batches of `BATCH_SIZE`, then the
remainder (when nonzero) as a smaller final batch. -/
theorem batchSizesGo_eq (fuel : Nat) :
    ∀ r : Nat, r ≤ fuel →
      batchSizesGo fuel r =
        List.replicate (r / BATCH_SIZE) BATCH_SIZE ++
          (if r % BATCH_SIZE = 0 then [] else [r % BATCH_SIZE]) := by
  induction fuel with
  | zero =>
    intro r hr
    have : r = 0 := Nat.le_zero.mp hr
    subst this
    simp [batchSizesGo]
  | succ f ih =>
    intro r hr
    cases r with
    | zero => simp [batchSizesGo]
    | succ n =>
      show batchSizesGo (f + 1) (n + 1) = _
      rw [batchSizesGo]
      simp only [BATCH_SIZE] at *
      by_cases hlt : n + 1 < 20
      · have hmin : min (n + 1) 20 = n + 1 := by omega
        rw [hmin]
        have h0 : n + 1 - (n + 1) = 0 := by omega
        rw [h0]
        have hdiv : (n + 1) / 20 = 0 := Nat.div_eq_of_lt hlt
        have hmod : (n + 1) % 20 = n + 1 := Nat.mod_eq_of_lt hlt
        rw [hdiv, hmod, if_neg (by omega)]
        cases f with
        | zero => simp [batchSizesGo]
        | succ f' => simp [batchSizesGo]
      · by_cases heq : n + 1 = 20
        · have hmin : min (n + 1) 20 = 20 := by omega
          rw [hmin]
          have h0 : n + 1 - 20 = 0 := by omega
          rw [h0]
          have hdiv : (n + 1) / 20 = 1 := by omega
          have hmod : (n + 1) % 20 = 0 := by omega
          rw [hdiv, hmod, if_pos rfl]
          cases f with
          | zero => simp [batchSizesGo, heq]
          | succ f' => simp [batchSizesGo, heq]
        · have hgt : 20 < n + 1 := by omega
          have hmin : min (n + 1) 20 = 20 := by omega
          rw [hmin]
          have hrec := ih (n + 1 - 20) (by omega)
          simp only [BATCH_SIZE] at hrec
          rw [hrec]
          have hdiv : (n + 1) / 20 = (n + 1 - 20) / 20 + 1 := by omega
          have hmod : (n + 1) % 20 = (n + 1 - 20) % 20 := by omega
          rw [hdiv, hmod, List.replicate_succ]
          simp

/-- The batch sizes sum back to the requested row count. -/
theorem batchSizes_sum (rows : Nat) : (batchSizes rows).sum = rows := by
  rw [batchSizes, batchSizesGo_eq rows rows le_rfl]
  simp only [BATCH_SIZE]
  by_cases h : rows % 20 = 0
  · rw [if_pos h]
    simp only [List.append_nil, List.sum_replicate, smul_eq_mul]
    omega
  · rw [if_neg h]
    simp only [List.sum_append, List.sum_replicate, smul_eq_mul, List.sum_cons,
      List.sum_nil]
    omega

/-- Replacing one column's values never changes the column labels. -/
theorem map_fst_replace (l : List (String × List Json)) (c : String)
    (vs : List Json) :
    (l.map (fun p => if p.1 = c then (c, vs) else p)).map Prod.fst
      = l.map Prod.fst := by
  induction l with
  | nil => rfl
  | cons p t ih =>
    by_cases h : p.1 = c <;> simp [h, ih]

/-- Looking up the replaced column finds the new values. -/
theorem lookup_replace_self (l : List (String × List Json)) (c : String)
    (vs : List Json) (h : c ∈ l.map Prod.fst) :
    List.lookup c (l.map (fun p => if p.1 = c then (c, vs) else p)) = some vs := by
  induction l with
  | nil => simp at h
  | cons p t ih =>
    simp only [List.map_cons]
    by_cases hp : p.1 = c
    · rw [if_pos hp]
      simp [List.lookup]
    · rw [if_neg hp]
      have ht : c ∈ t.map Prod.fst := by
        simp only [List.map_cons, List.mem_cons] at h
        tauto
      have hbc : (c == p.1) = false := beq_eq_false_iff_ne.mpr (fun hh => hp hh.symm)
      simp [List.lookup, hbc, ih ht]

/-- Looking up a different column is unaffected by the replacement. -/
theorem lookup_replace_other (l : List (String × List Json)) (c c' : String)
    (vs : List Json) (h : c' ≠ c) :
    List.lookup c' (l.map (fun p => if p.1 = c then (c, vs) else p))
      = List.lookup c' l := by
  induction l with
  | nil => rfl
  | cons p t ih =>
    simp only [List.map_cons]
    by_cases hp : p.1 = c
    · rw [if_pos hp]
      have hbc : (c' == c) = false := beq_eq_false_iff_ne.mpr h
      have hbp : (c' == p.1) = false := by rw [hp]; exact hbc
      simp [List.lookup, hbc, hbp, ih]
    · rw [if_neg hp]
      by_cases hcp : c' = p.1
      · simp [List.lookup, hcp]
      · simp [List.lookup, beq_eq_false_iff_ne.mpr hcp, ih]

/-- `setCol` keeps the row count. -/
theorem setCol_nrows (f : Frame) (c : String) (vs : List Json) :
    (setCol f c vs).nrows = f.nrows := rfl

/-- `setCol` on a present column keeps the column labels. -/
theorem frameColNames_setCol (f : Frame) (c : String) (vs : List Json)
    (h : (f.cols.map Prod.fst).contains c = true) :
    frameColNames (setCol f c vs) = frameColNames f := by
  simp only [frameColNames, setCol, h, if_pos]
  exact map_fst_replace f.cols c vs

/-- Looking up the column just set finds the new values. -/
theorem lookup_setCol_self (f : Frame) (c : String) (vs : List Json)
    (h : (f.cols.map Prod.fst).contains c = true) :
    List.lookup c (setCol f c vs).cols = some vs := by
  simp only [setCol, h, if_pos]
  exact lookup_replace_self f.cols c vs (by simpa using h)

/-- Looking up a different column is unaffected by `setCol`. -/
theorem lookup_setCol_ne (f : Frame) (c c' : String) (vs : List Json)
    (h : c' ≠ c) :
    List.lookup c' (setCol f c vs).cols = List.lookup c' f.cols := by
  simp only [setCol]
  by_cases hc : (f.cols.map Prod.fst).contains c = true
  · simp only [hc, if_pos]
    exact lookup_replace_other f.cols c c' vs h
  · simp only [Bool.not_eq_true] at hc
    simp only [hc, Bool.false_eq_true, if_false]
    rw [List.lookup_append]
    cases hl : List.lookup c' f.cols with
    | some v => rfl
    | none =>
      simp [List.lookup, beq_eq_false_iff_ne.mpr h]

/-- One renumbering step keeps the row count. -/
theorem stepRenumber_nrows (acc : Frame) (col : Column) :
    (stepRenumber acc col).nrows = acc.nrows := by
  unfold stepRenumber
  by_cases h : col.primary_key && (acc.cols.map Prod.fst).contains col.name
  · rw [if_pos h]; rfl
  · rw [if_neg h]

/-- One renumbering step keeps the column labels. -/
theorem stepRenumber_names (acc : Frame) (col : Column) :
    frameColNames (stepRenumber acc col) = frameColNames acc := by
  unfold stepRenumber
  by_cases h : col.primary_key && (acc.cols.map Prod.fst).contains col.name
  · rw [if_pos h]
    exact frameColNames_setCol acc col.name _ (Bool.and_elim_right h)
  · rw [if_neg h]

/-- The renumbering fold keeps the row count. -/
theorem foldl_stepRenumber_nrows (cols : List Column) (df : Frame) :
    (cols.foldl stepRenumber df).nrows = df.nrows := by
  induction cols generalizing df with
  | nil => rfl
  | cons c rest ih => rw [List.foldl_cons, ih, stepRenumber_nrows]

/-- The renumbering fold keeps the column labels. -/
theorem foldl_stepRenumber_names (cols : List Column) (df : Frame) :
    frameColNames (cols.foldl stepRenumber df) = frameColNames df := by
  induction cols generalizing df with
  | nil => rfl
  | cons c rest ih => rw [List.foldl_cons, ih, stepRenumber_names]

/-- A column already holding the sequential run `1..nrows` still holds it after
any further renumbering steps (they rewrite it to the same run or leave it). -/
theorem foldl_stepRenumber_keeps (cols : List Column) (df : Frame) (name : String)
    (h : List.lookup name df.cols
      = some ((List.range df.nrows).map (fun i => Json.num (i + 1)))) :
    List.lookup name (cols.foldl stepRenumber df).cols
      = some ((List.range df.nrows).map (fun i => Json.num (i + 1))) := by
  induction cols generalizing df with
  | nil => exact h
  | cons c rest ih =>
    rw [List.foldl_cons]
    have hstep : List.lookup name (stepRenumber df c).cols
        = some ((List.range (stepRenumber df c).nrows).map (fun i => Json.num (i + 1))) := by
      rw [stepRenumber_nrows]
      unfold stepRenumber
      by_cases hb : c.primary_key && (df.cols.map Prod.fst).contains c.name
      · rw [if_pos hb]
        by_cases hn : c.name = name
        · rw [← hn]
          rw [lookup_setCol_self df c.name _ (Bool.and_elim_right hb)]
        · rw [lookup_setCol_ne df c.name name _ (fun hh => hn hh.symm)]
          exact h
      · rw [if_neg hb]
        exact h
    have := ih (stepRenumber df c) hstep
    rw [stepRenumber_nrows] at this
    exact this

/-- The full renumbering: every primary-key column present in the frame ends up
holding exactly the sequential integers `1..nrows`. -/
theorem lookup_foldl_renumber (cols : List Column) (df : Frame) (name : String)
    (hex : ∃ c ∈ cols, c.primary_key = true ∧ c.name = name)
    (hmem : (frameColNames df).contains name = true) :
    List.lookup name (cols.foldl stepRenumber df).cols
      = some ((List.range df.nrows).map (fun i => Json.num (i + 1))) := by
  induction cols generalizing df with
  | nil => simp at hex
  | cons c rest ih =>
    rw [List.foldl_cons]
    by_cases hrest : ∃ c' ∈ rest, c'.primary_key = true ∧ c'.name = name
    · have hmem' : (frameColNames (stepRenumber df c)).contains name = true := by
        rw [stepRenumber_names]; exact hmem
      have := ih (stepRenumber df c) hrest hmem'
      rw [stepRenumber_nrows] at this
      exact this
    · obtain ⟨c0, hc0, hpk, hname⟩ := hex
      have hc : c0 = c := by
        rcases List.mem_cons.mp hc0 with h | h
        · exact h
        · exact absurd ⟨c0, h, hpk, hname⟩ hrest
      subst hc
      have hcname : c0.name = name := hname
      have hcont : (df.cols.map Prod.fst).contains c0.name = true := by
        rw [hcname]; exact hmem
      have hstep : stepRenumber df c0
          = setCol df c0.name ((List.range df.nrows).map (fun i => Json.num (i + 1))) := by
        unfold stepRenumber
        rw [if_pos (by rw [hpk, hcont]; rfl)]
      rw [hstep]
      have hlook : List.lookup name
          (setCol df c0.name ((List.range df.nrows).map (fun i => Json.num (i + 1)))).cols
          = some ((List.range df.nrows).map (fun i => Json.num (i + 1))) := by
        rw [← hcname]
        exact lookup_setCol_self df c0.name _ hcont
      have := foldl_stepRenumber_keeps rest
        (setCol df c0.name ((List.range df.nrows).map (fun i => Json.num (i + 1))))
        name (by rw [setCol_nrows]; exact hlook)
      rw [setCol_nrows] at this
      exact this

/-- Coercion of a natural-number list expressed as a map. -/
theorem flatMap_cast (l : List Nat) :
    (l.flatMap fun a => [(a : Int)]) = l.map (fun a : Nat => (a : Int)) := by
  induction l with
  | nil => rfl
  | cons a t ih => simp [List.flatMap_cons, ih]

/-- C2: above the batch limit, `_generate_table_data` issues one backend call
per batch over the closed-form batch sizes (full batches of 20 then the
remainder; 45 rows give sizes 20,20,5 and 1000 rows give 50 batches),
concatenates the per-batch frames in batch order, and then every primary-key
column present in the concatenated output holds exactly the sequential
integers `1..N` where `N` is the concatenated row count — equal to the
requested row count whenever each batch returns the requested number of rows —
and that sequential run has no duplicates, regardless of the backend's
values. -/
theorem generate_table_batching (table : Table) (rows : Nat)
    (backend : Nat → Nat → Frame) (hrows : BATCH_SIZE < rows) :
    batchSizes rows =
      List.replicate (rows / BATCH_SIZE) BATCH_SIZE ++
        (if rows % BATCH_SIZE = 0 then [] else [rows % BATCH_SIZE])
    ∧ (batchSizes rows).sum = rows
    ∧ batchSizes 45 = [20, 20, 5]
    ∧ (batchSizes 1000).length = 50
    ∧ generate_table_data table rows backend =
        renumber_pks table
          (concatFrames ((batchSizes rows).enum.map (fun p => backend p.1 p.2)))
    ∧ (∀ col ∈ table.columns, col.primary_key = true →
        (frameColNames
            (concatFrames ((batchSizes rows).enum.map (fun p => backend p.1 p.2)))).contains
            col.name = true →
        List.lookup col.name (generate_table_data table rows backend).cols
          = some ((List.range
              (concatFrames ((batchSizes rows).enum.map (fun p => backend p.1 p.2))).nrows).map
                (fun i => Json.num (i + 1))))
    ∧ ((∀ i s, (backend i s).nrows = s) →
        (concatFrames ((batchSizes rows).enum.map (fun p => backend p.1 p.2))).nrows = rows)
    ∧ (∀ n : Nat, ((List.range n).map (fun i => Json.num (i + 1))).Nodup) := by
  have hnot : ¬ rows ≤ BATCH_SIZE := by omega
  have hgen : generate_table_data table rows backend =
      renumber_pks table
        (concatFrames ((batchSizes rows).enum.map (fun p => backend p.1 p.2))) := by
    rw [generate_table_data, if_neg hnot]
  refine ⟨batchSizesGo_eq rows rows le_rfl, batchSizes_sum rows, by decide, ?_, hgen,
    ?_, ?_, ?_⟩
  · rw [batchSizes, batchSizesGo_eq 1000 1000 le_rfl]
    simp [BATCH_SIZE]
  · intro col hc hpk hcont
    rw [hgen, renumber_pks]
    exact lookup_foldl_renumber table.columns _ col.name ⟨col, hc, hpk, rfl⟩ hcont
  · intro hb
    simp only [concatFrames, List.map_map]
    have : ((batchSizes rows).enum.map (Frame.nrows ∘ fun p => backend p.1 p.2))
        = (batchSizes rows).enum.map Prod.snd := by
      apply List.map_congr_left
      intro p _
      exact hb p.1 p.2
    rw [this, List.enum_map_snd, batchSizes_sum]
  · intro n
    refine List.Nodup.map ?_ ?_
    · intro a b hab
      simp at hab
      omega
    · show ((List.range n).flatMap fun a => [(a : Int)]).Nodup
      rw [flatMap_cast]
      refine List.Nodup.map ?_ (List.nodup_range n)
      intro a b hab
      simp only [] at hab
      exact_mod_cast hab

/-- Witness for C2 at 45 requested rows with a concrete single-column backend:
the batch sizes are 20,20,5 and the `id` column of the result is `1..45`. -/
theorem generate_table_batching_witness :
    batchSizes 45 = [20, 20, 5]
    ∧ ((∀ i s,
          ((fun (_ : Nat) (s : Nat) =>
            ({ nrows := s
             , cols := [("id", List.replicate s (Json.num 7))] } : Frame)) i s).nrows = s) →
        (concatFrames ((batchSizes 45).enum.map
          (fun p => (fun (_ : Nat) (s : Nat) =>
            ({ nrows := s
             , cols := [("id", List.replicate s (Json.num 7))] } : Frame)) p.1 p.2))).nrows = 45) := by
  have h := generate_table_batching
    { name := "t", columns := [{ name := "id", data_type := "INTEGER", primary_key := true }] }
    45
    (fun (_ : Nat) (s : Nat) =>
      ({ nrows := s, cols := [("id", List.replicate s (Json.num 7))] } : Frame))
    (by decide)
  exact ⟨h.2.2.1, h.2.2.2.2.2.2.1⟩

/-! ## C1 and C3: the dependency orderer

The traversal is analysed through an invariant relating the `visited` set, the
emitted `order`, and the recursion stack: `visited` is exactly the union of
`order` and the stack, the stack is disjoint from `order`, and `order` has no
duplicates. -/

/-- Unfolding of `visit` at zero fuel. -/
theorem visit_zero (tables : TableMap) (n : String) (st : VisitState) :
    visit tables 0 n st = st := rfl

/-- Unfolding of `visit` at positive fuel, phrased with `visitList`. -/
theorem visit_succ (tables : TableMap) (fuel : Nat) (n : String) (st : VisitState) :
    visit tables (fuel + 1) n st =
      if n ∈ st.visited then st
      else
        let st2 := visitList tables fuel (depsOf tables n) ⟨n :: st.visited, st.order⟩
        ⟨st2.visited, st2.order ++ [n]⟩ := rfl

/-- `visitList` on the empty list. -/
theorem visitList_nil (tables : TableMap) (fuel : Nat) (st : VisitState) :
    visitList tables fuel [] st = st := rfl

/-- `visitList` on a cons. -/
theorem visitList_cons (tables : TableMap) (fuel : Nat) (n : String)
    (ns : List String) (st : VisitState) :
    visitList tables fuel (n :: ns) st
      = visitList tables fuel ns (visit tables fuel n st) := rfl

/-- The traversal only grows the visited set and only appends to the order. -/
def StateLe (s1 s2 : VisitState) : Prop :=
  (∀ x ∈ s1.visited, x ∈ s2.visited) ∧ ∃ t, s2.order = s1.order ++ t

theorem stateLe_refl (s : VisitState) : StateLe s s :=
  ⟨fun _ hx => hx, ⟨[], by simp⟩⟩

theorem stateLe_trans {a b c : VisitState} (h1 : StateLe a b) (h2 : StateLe b c) :
    StateLe a c := by
  obtain ⟨t1, ht1⟩ := h1.2
  obtain ⟨t2, ht2⟩ := h2.2
  exact ⟨fun x hx => h2.1 x (h1.1 x hx), ⟨t1 ++ t2, by rw [ht2, ht1, List.append_assoc]⟩⟩

theorem visitList_stateLe_of (tables : TableMap) (fuel : Nat)
    (h : ∀ n st, StateLe st (visit tables fuel n st)) :
    ∀ names st, StateLe st (visitList tables fuel names st) := by
  intro names
  induction names with
  | nil => intro st; exact stateLe_refl st
  | cons n ns ih =>
    intro st
    rw [visitList_cons]
    exact stateLe_trans (h n st) (ih (visit tables fuel n st))

theorem visit_stateLe (tables : TableMap) (fuel : Nat) :
    ∀ n st, StateLe st (visit tables fuel n st) := by
  induction fuel with
  | zero => intro n st; exact stateLe_refl st
  | succ f ih =>
    intro n st
    rw [visit_succ]
    by_cases h : n ∈ st.visited
    · rw [if_pos h]; exact stateLe_refl st
    · rw [if_neg h]
      show StateLe st
        ⟨(visitList tables f (depsOf tables n) ⟨n :: st.visited, st.order⟩).visited,
         (visitList tables f (depsOf tables n) ⟨n :: st.visited, st.order⟩).order ++ [n]⟩
      have h1 : StateLe st ⟨n :: st.visited, st.order⟩ :=
        ⟨fun x hx => List.mem_cons_of_mem n hx, ⟨[], by simp⟩⟩
      have h2 := visitList_stateLe_of tables f ih (depsOf tables n) ⟨n :: st.visited, st.order⟩
      refine stateLe_trans (stateLe_trans h1 h2) ⟨fun x hx => hx, ⟨[n], rfl⟩⟩

/-- With positive fuel, the visited node ends up in the visited set. -/
theorem visit_mem_visited (tables : TableMap) (fuel : Nat) (hf : 0 < fuel)
    (n : String) (st : VisitState) : n ∈ (visit tables fuel n st).visited := by
  cases fuel with
  | zero => omega
  | succ f =>
    rw [visit_succ]
    by_cases hm : n ∈ st.visited
    · rw [if_pos hm]; exact hm
    · rw [if_neg hm]
      show n ∈ (visitList tables f (depsOf tables n) ⟨n :: st.visited, st.order⟩).visited
      exact (visitList_stateLe_of tables f (visit_stateLe tables f) _ _).1 n
        (List.mem_cons_self n st.visited)

/-- A successful lookup means the key occurs among the keys. -/
theorem mem_keys_of_lookup {v : Table} (tables : TableMap) {k : String}
    (h : List.lookup k tables = some v) : k ∈ keysOf tables := by
  induction tables with
  | nil => simp [List.lookup] at h
  | cons p t ih =>
    rw [List.lookup] at h
    cases hb : (k == p.1) with
    | true =>
      have : k = p.1 := eq_of_beq hb
      simp [keysOf, this]
    | false =>
      rw [hb] at h
      simp only [keysOf, List.map_cons, List.mem_cons]
      exact Or.inr (ih h)

/-- Every dependency of a table is a key of the mapping. -/
theorem depsOf_subset_keys (tables : TableMap) (n : String) :
    ∀ r ∈ depsOf tables n, r ∈ keysOf tables := by
  intro r hr
  unfold depsOf at hr
  cases hl : List.lookup n tables with
  | none => rw [hl] at hr; simp at hr
  | some t =>
    rw [hl] at hr
    simp only [List.mem_map] at hr
    obtain ⟨fk, hfk, hfkr⟩ := hr
    have hc := (List.mem_filter.mp hfk).2
    rw [← hfkr]
    simpa using hc

/-- A nonempty dependency list means the table itself is a key. -/
theorem mem_keys_of_depsOf_mem (tables : TableMap) {n r : String}
    (h : r ∈ depsOf tables n) : n ∈ keysOf tables := by
  unfold depsOf at h
  cases hl : List.lookup n tables with
  | none => rw [hl] at h; simp at h
  | some t => exact mem_keys_of_lookup tables hl

/-- Lifts a rank bound checked only on the keys (a decidable condition) to all
pairs, since dependency edges only leave keys. -/
theorem rank_of_bounded (tables : TableMap) (rank : String → Nat)
    (hb : ∀ t ∈ keysOf tables, ∀ r ∈ depsOf tables t, rank r < rank t) :
    ∀ t r, r ∈ depsOf tables t → rank r < rank t := by
  intro t r h
  exact hb t (mem_keys_of_depsOf_mem tables h) r h

/-- The visited names stay inside the keys. -/
theorem visit_visited_keys (tables : TableMap) :
    ∀ fuel n st, n ∈ keysOf tables →
      (∀ x ∈ st.visited, x ∈ keysOf tables) →
      ∀ x ∈ (visit tables fuel n st).visited, x ∈ keysOf tables := by
  intro fuel
  induction fuel with
  | zero => intro n st _ h2 x hx; exact h2 x hx
  | succ f ih =>
    intro n st hn h2 x hx
    rw [visit_succ] at hx
    by_cases hm : n ∈ st.visited
    · rw [if_pos hm] at hx; exact h2 x hx
    · rw [if_neg hm] at hx
      have hfold : ∀ names st', (∀ d ∈ names, d ∈ keysOf tables) →
          (∀ y ∈ st'.visited, y ∈ keysOf tables) →
          ∀ y ∈ (visitList tables f names st').visited, y ∈ keysOf tables := by
        intro names
        induction names with
        | nil => intro st' _ h y hy; exact h y hy
        | cons d ds ihd =>
          intro st' hd h y hy
          rw [visitList_cons] at hy
          exact ihd (visit tables f d st')
            (fun e he => hd e (List.mem_cons_of_mem d he))
            (ih d st' (hd d (List.mem_cons_self d ds)) h) y hy
      have hx' : x ∈ (visitList tables f (depsOf tables n)
          ⟨n :: st.visited, st.order⟩).visited := hx
      refine hfold (depsOf tables n) ⟨n :: st.visited, st.order⟩
        (depsOf_subset_keys tables n) ?_ x hx'
      intro y hy
      rcases List.mem_cons.mp hy with rfl | hy'
      · exact hn
      · exact h2 y hy'

/-- List version of `visit_visited_keys`. -/
theorem visitList_visited_keys (tables : TableMap) (fuel : Nat) :
    ∀ names st, (∀ d ∈ names, d ∈ keysOf tables) →
      (∀ x ∈ st.visited, x ∈ keysOf tables) →
      ∀ x ∈ (visitList tables fuel names st).visited, x ∈ keysOf tables := by
  intro names
  induction names with
  | nil => intro st _ h x hx; exact h x hx
  | cons d ds ih =>
    intro st hd h x hx
    rw [visitList_cons] at hx
    exact ih (visit tables fuel d st)
      (fun e he => hd e (List.mem_cons_of_mem d he))
      (visit_visited_keys tables fuel d st (hd d (List.mem_cons_self d ds)) h) x hx

/-- With positive fuel, every name of the list ends up visited. -/
theorem visitList_mem_visited (tables : TableMap) (fuel : Nat) (hf : 0 < fuel) :
    ∀ names st, ∀ n ∈ names, n ∈ (visitList tables fuel names st).visited := by
  intro names
  induction names with
  | nil => intro st n hn; simp at hn
  | cons d ds ih =>
    intro st n hn
    rcases List.mem_cons.mp hn with rfl | hn'
    · rw [visitList_cons]
      exact (visitList_stateLe_of tables fuel (visit_stateLe tables fuel) ds _).1 n
        (visit_mem_visited tables fuel hf n st)
    · rw [visitList_cons]
      exact ih (visit tables fuel d st) n hn'

/-- The traversal invariant, parameterized by the recursion stack `s`: the
order has no duplicates, the visited set is exactly the names in the order or
on the stack, and the stack is disjoint from the order. -/
def VisitInv (s : List String) (st : VisitState) : Prop :=
  st.order.Nodup ∧
  (∀ x, x ∈ st.visited ↔ (x ∈ st.order ∨ x ∈ s)) ∧
  (∀ x ∈ s, x ∉ st.order)

/-- Pushing an unvisited name onto the stack preserves the invariant. -/
theorem inv_push (s : List String) (st : VisitState) (n : String)
    (h : VisitInv s st) (hm : n ∉ st.visited) :
    VisitInv (n :: s) ⟨n :: st.visited, st.order⟩ := by
  have hno : n ∉ st.order := fun hno => hm ((h.2.1 n).mpr (Or.inl hno))
  refine ⟨h.1, ?_, ?_⟩
  · intro x
    constructor
    · intro hx
      rcases List.mem_cons.mp hx with rfl | hx'
      · exact Or.inr (List.mem_cons_self _ _)
      · rcases (h.2.1 x).mp hx' with h' | h'
        · exact Or.inl h'
        · exact Or.inr (List.mem_cons_of_mem _ h')
    · intro hx
      rcases hx with h' | h'
      · exact List.mem_cons_of_mem _ ((h.2.1 x).mpr (Or.inl h'))
      · rcases List.mem_cons.mp h' with rfl | h''
        · exact List.mem_cons_self _ _
        · exact List.mem_cons_of_mem _ ((h.2.1 x).mpr (Or.inr h''))
  · intro x hx
    rcases List.mem_cons.mp hx with rfl | hx'
    · exact hno
    · exact h.2.2 x hx'

/-- List version of invariant preservation, given it for single visits. -/
theorem visitList_inv_of (tables : TableMap) (fuel : Nat)
    (h : ∀ n s st, VisitInv s st → VisitInv s (visit tables fuel n st)) :
    ∀ names s st, VisitInv s st → VisitInv s (visitList tables fuel names st) := by
  intro names
  induction names with
  | nil => intro s st hi; exact hi
  | cons d ds ih =>
    intro s st hi
    rw [visitList_cons]
    exact ih s (visit tables fuel d st) (h d s st hi)

/-- The invariant is preserved by `visit`, at every fuel. -/
theorem visit_inv (tables : TableMap) :
    ∀ fuel n s st, VisitInv s st → VisitInv s (visit tables fuel n st) := by
  intro fuel
  induction fuel with
  | zero => intro n s st h; exact h
  | succ f ih =>
    intro n s st h
    rw [visit_succ]
    by_cases hm : n ∈ st.visited
    · rw [if_pos hm]; exact h
    · rw [if_neg hm]
      have hns : n ∉ s := fun hns => hm ((h.2.1 n).mpr (Or.inr hns))
      have h1 := inv_push s st n h hm
      have h2 := visitList_inv_of tables f ih (depsOf tables n) (n :: s)
        ⟨n :: st.visited, st.order⟩ h1
      have hmem : n ∈ (visitList tables f (depsOf tables n)
          ⟨n :: st.visited, st.order⟩).visited :=
        (visitList_stateLe_of tables f (visit_stateLe tables f) _ _).1 n
          (List.mem_cons_self _ _)
      show VisitInv s
        ⟨(visitList tables f (depsOf tables n) ⟨n :: st.visited, st.order⟩).visited,
         (visitList tables f (depsOf tables n) ⟨n :: st.visited, st.order⟩).order ++ [n]⟩
      set st2 := visitList tables f (depsOf tables n) ⟨n :: st.visited, st.order⟩ with hst2
      have hno2 : n ∉ st2.order := h2.2.2 n (List.mem_cons_self _ _)
      refine ⟨?_, ?_, ?_⟩
      · rw [List.nodup_append]
        refine ⟨h2.1, List.nodup_singleton n, ?_⟩
        intro a ha hb
        have han : a = n := by simpa using hb
        subst han
        exact hno2 ha
      · intro x
        constructor
        · intro hx
          rcases (h2.2.1 x).mp hx with h' | h'
          · exact Or.inl (List.mem_append_left _ h')
          · rcases List.mem_cons.mp h' with rfl | h''
            · exact Or.inl (List.mem_append_right _ (by simp))
            · exact Or.inr h''
        · intro hx
          rcases hx with h' | h'
          · rcases List.mem_append.mp h' with h'' | h''
            · exact (h2.2.1 x).mpr (Or.inl h'')
            · have hxn : x = n := by simpa using h''
              subst hxn
              exact hmem
          · exact (h2.2.1 x).mpr (Or.inr (List.mem_cons_of_mem _ h'))
      · intro x hx hmem2
        rcases List.mem_append.mp hmem2 with h'' | h''
        · exact h2.2.2 x (List.mem_cons_of_mem _ hx) h''
        · have hxn : x = n := by simpa using h''
          subst hxn
          exact hns hx

/-- The number of keys not yet visited: the decreasing measure showing the
fuel `(keysOf tables).length + 1` suffices. -/
def unvisitedCount (tables : TableMap) (st : VisitState) : Nat :=
  ((keysOf tables).filter (fun k => !(st.visited.contains k))).length

/-- Filtering with a weaker predicate keeps at least as many elements. -/
theorem filter_length_mono {α : Type} (l : List α) (p q : α → Bool)
    (h : ∀ a, p a = true → q a = true) :
    (l.filter p).length ≤ (l.filter q).length := by
  induction l with
  | nil => exact Nat.le_refl 0
  | cons a t ih =>
    by_cases hp : p a = true
    · have hq := h a hp
      simp only [List.filter_cons, hp, hq, if_pos, List.length_cons]
      omega
    · have hp' : p a = false := by revert hp; cases p a <;> simp
      by_cases hq : q a = true
      · simp only [List.filter_cons, hp', hq, Bool.false_eq_true, if_false, if_pos,
          List.length_cons]
        omega
      · have hq' : q a = false := by revert hq; cases q a <;> simp
        simp only [List.filter_cons, hp', hq', Bool.false_eq_true, if_false]
        exact ih

/-- Filtering with a strictly weaker predicate, witnessed at a member of the
list, keeps strictly more elements. -/
theorem filter_length_lt {α : Type} (l : List α) (p q : α → Bool)
    (himp : ∀ a, p a = true → q a = true) (n : α) (hn : n ∈ l)
    (hp : p n = false) (hq : q n = true) :
    (l.filter p).length < (l.filter q).length := by
  induction l with
  | nil => simp at hn
  | cons a t ih =>
    rcases List.mem_cons.mp hn with rfl | hn'
    · simp only [List.filter_cons, hp, hq, Bool.false_eq_true, if_false, if_pos,
        List.length_cons]
      have := filter_length_mono t p q himp
      omega
    · by_cases hpa : p a = true
      · have hqa := himp a hpa
        simp only [List.filter_cons, hpa, hqa, if_pos, List.length_cons]
        exact Nat.succ_lt_succ (ih hn')
      · have hpa' : p a = false := by revert hpa; cases p a <;> simp
        by_cases hqa : q a = true
        · simp only [List.filter_cons, hpa', hqa, Bool.false_eq_true, if_false, if_pos,
            List.length_cons]
          have := ih hn'
          omega
        · have hqa' : q a = false := by revert hqa; cases q a <;> simp
          simp only [List.filter_cons, hpa', hqa', Bool.false_eq_true, if_false]
          exact ih hn'

/-- Growing the visited set can only shrink the unvisited count. -/
theorem unvisitedCount_mono (tables : TableMap) {st st' : VisitState}
    (h : ∀ x ∈ st.visited, x ∈ st'.visited) :
    unvisitedCount tables st' ≤ unvisitedCount tables st := by
  apply filter_length_mono
  intro a ha
  simp only [Bool.not_eq_true', ← Bool.not_eq_true] at ha ⊢
  intro hc
  exact ha (by simpa using h a (by simpa using hc))

/-- Marking an unvisited key visited strictly decreases the unvisited count. -/
theorem unvisitedCount_push (tables : TableMap) (st : VisitState) (n : String)
    (hn : n ∈ keysOf tables) (hnm : n ∉ st.visited) :
    unvisitedCount tables ⟨n :: st.visited, st.order⟩ < unvisitedCount tables st := by
  apply filter_length_lt _ _ _ ?_ n hn
  · have : (n :: st.visited).contains n = true := by simp
    simp [this]
  · simpa using hnm
  · intro a ha
    simp only [Bool.not_eq_true'] at ha ⊢
    revert ha
    simp only [List.contains_cons]
    cases st.visited.contains a <;> simp

/-- The order respects the dependency edges: every dependency of an emitted
table is emitted earlier. -/
def Topo (tables : TableMap) (order : List String) : Prop :=
  ∀ a b, b ∈ depsOf tables a → a ∈ order →
    b ∈ order ∧ List.indexOf b order < List.indexOf a order

/-- Appending at the end of an order keeps indices of present elements. -/
theorem indexOf_append_self_of_not_mem (a : String) (l : List String)
    (h : a ∉ l) : List.indexOf a (l ++ [a]) = l.length := by
  induction l with
  | nil => simp
  | cons b t ih =>
    have hab : b ≠ a := fun hba => h (hba ▸ List.mem_cons_self b t)
    have hat : a ∉ t := fun hat => h (List.mem_cons_of_mem b hat)
    rw [List.cons_append, List.indexOf_cons_ne _ hab, ih hat, List.length_cons]

/-- The topological invariant through a list of visits, given it for single
visits at the same fuel; also returns that every visited name got emitted. -/
theorem visitList_topo (tables : TableMap) (rank : String → Nat) (fuel : Nat)
    (hvisit : ∀ n s st, VisitInv s st → Topo tables st.order →
      (∀ x ∈ s, rank n < rank x) → n ∈ keysOf tables →
      unvisitedCount tables st < fuel →
      Topo tables (visit tables fuel n st).order) :
    ∀ names s st, VisitInv s st → Topo tables st.order →
      (∀ d ∈ names, ∀ x ∈ s, rank d < rank x) →
      (∀ d ∈ names, rank d < rank d → False) →
      (∀ d ∈ names, d ∈ keysOf tables) →
      unvisitedCount tables st < fuel →
      Topo tables (visitList tables fuel names st).order
      ∧ (∀ d ∈ names, d ∈ (visitList tables fuel names st).order) := by
  intro names
  induction names with
  | nil =>
    intro s st _ hTopo _ _ _ _
    exact ⟨hTopo, by simp⟩
  | cons d ds ih =>
    intro s st hInv hTopo hrk hirr hkeys hfuel
    rw [visitList_cons]
    have hfpos : 0 < fuel := by omega
    have hTopo' : Topo tables (visit tables fuel d st).order :=
      hvisit d s st hInv hTopo (hrk d (List.mem_cons_self d ds))
        (hkeys d (List.mem_cons_self d ds)) hfuel
    have hInv' : VisitInv s (visit tables fuel d st) :=
      visit_inv tables fuel d s st hInv
    have hle := visit_stateLe tables fuel d st
    have hfuel' : unvisitedCount tables (visit tables fuel d st) < fuel :=
      Nat.lt_of_le_of_lt (unvisitedCount_mono tables hle.1) hfuel
    have hd_in : d ∈ (visit tables fuel d st).order := by
      have hv := visit_mem_visited tables fuel hfpos d st
      rcases (hInv'.2.1 d).mp hv with h' | h'
      · exact h'
      · exact absurd (hrk d (List.mem_cons_self d ds) d h')
          (fun hh => hirr d (List.mem_cons_self d ds) hh)
    have hmain := ih s (visit tables fuel d st) hInv' hTopo'
      (fun e he x hx => hrk e (List.mem_cons_of_mem d he) x hx)
      (fun e he => hirr e (List.mem_cons_of_mem d he))
      (fun e he => hkeys e (List.mem_cons_of_mem d he)) hfuel'
    refine ⟨hmain.1, ?_⟩
    intro e he
    rcases List.mem_cons.mp he with rfl | he'
    · obtain ⟨t, ht⟩ :=
        (visitList_stateLe_of tables fuel (visit_stateLe tables fuel) ds _).2
      rw [ht]
      exact List.mem_append_left _ hd_in
    · exact hmain.2 e he'

/-- The emitted order always respects the dependency edges, for any acyclic
dependency structure (witnessed by a rank function strictly decreasing along
edges) and sufficient fuel. -/
theorem visit_topo (tables : TableMap) (rank : String → Nat)
    (hrank : ∀ t r, r ∈ depsOf tables t → rank r < rank t) :
    ∀ fuel, ∀ n s st, VisitInv s st → Topo tables st.order →
      (∀ x ∈ s, rank n < rank x) → n ∈ keysOf tables →
      unvisitedCount tables st < fuel →
      Topo tables (visit tables fuel n st).order := by
  intro fuel
  induction fuel with
  | zero => intro n s st _ _ _ _ hf; omega
  | succ f ih =>
    intro n s st hInv hTopo hrk hkey hfuel
    rw [visit_succ]
    by_cases hm : n ∈ st.visited
    · rw [if_pos hm]; exact hTopo
    · rw [if_neg hm]
      show Topo tables
        ((visitList tables f (depsOf tables n) ⟨n :: st.visited, st.order⟩).order ++ [n])
      have h1 := inv_push s st n hInv hm
      have hrk' : ∀ d ∈ depsOf tables n, ∀ x ∈ n :: s, rank d < rank x := by
        intro d hd x hx
        rcases List.mem_cons.mp hx with rfl | hx'
        · exact hrank x d hd
        · exact lt_trans (hrank n d hd) (hrk x hx')
      have hirr : ∀ d ∈ depsOf tables n, rank d < rank d → False :=
        fun d _ hh => absurd hh (lt_irrefl _)
      have hfuel1 : unvisitedCount tables ⟨n :: st.visited, st.order⟩ < f := by
        have := unvisitedCount_push tables st n hkey hm
        omega
      have hfold := visitList_topo tables rank f ih (depsOf tables n) (n :: s)
        ⟨n :: st.visited, st.order⟩ h1 hTopo hrk' hirr
        (depsOf_subset_keys tables n) hfuel1
      set st2 := visitList tables f (depsOf tables n) ⟨n :: st.visited, st.order⟩
        with hst2
      have hInv2 : VisitInv (n :: s) st2 :=
        visitList_inv_of tables f (visit_inv tables f) (depsOf tables n) (n :: s) _ h1
      have hno2 : n ∉ st2.order := hInv2.2.2 n (List.mem_cons_self _ _)
      intro a b hdep hmem
      rcases List.mem_append.mp hmem with ha | ha
      · obtain ⟨hb, hidx⟩ := hfold.1 a b hdep ha
        refine ⟨List.mem_append_left _ hb, ?_⟩
        rw [List.indexOf_append_of_mem hb, List.indexOf_append_of_mem ha]
        exact hidx
      · have han : a = n := by simpa using ha
        subst han
        have hb : b ∈ st2.order := hfold.2 b hdep
        refine ⟨List.mem_append_left _ hb, ?_⟩
        rw [List.indexOf_append_of_mem hb, indexOf_append_self_of_not_mem a st2.order hno2]
        exact List.indexOf_lt_length.mpr hb

/-! ## C3: termination and exactly-once coverage -/

/-- C3: for every table mapping (cycles and self-references included), the
traversal terminates and the generation order is a permutation of the table
names — every name of the mapping appears exactly once. -/
theorem generation_order_complete (tables : TableMap)
    (hnodup : (keysOf tables).Nodup) :
    (get_generation_order tables).Perm (keysOf tables)
    ∧ ∀ n ∈ keysOf tables, (get_generation_order tables).count n = 1 := by
  have hInv0 : VisitInv [] (⟨[], []⟩ : VisitState) :=
    ⟨List.nodup_nil, by simp, by simp⟩
  have hInvF : VisitInv []
      (visitList tables ((keysOf tables).length + 1) (keysOf tables) ⟨[], []⟩) :=
    visitList_inv_of tables ((keysOf tables).length + 1)
      (visit_inv tables ((keysOf tables).length + 1)) (keysOf tables) [] _ hInv0
  have hkeysF : ∀ n ∈ keysOf tables, n ∈ get_generation_order tables := by
    intro n hn
    have hv := visitList_mem_visited tables ((keysOf tables).length + 1)
      (by omega) (keysOf tables) ⟨[], []⟩ n hn
    rcases (hInvF.2.1 n).mp hv with h' | h'
    · exact h'
    · simp at h'
  have hsubF : ∀ x ∈ get_generation_order tables, x ∈ keysOf tables := by
    intro x hx
    have hv : x ∈ (visitList tables ((keysOf tables).length + 1)
        (keysOf tables) ⟨[], []⟩).visited := (hInvF.2.1 x).mpr (Or.inl hx)
    exact visitList_visited_keys tables ((keysOf tables).length + 1)
      (keysOf tables) ⟨[], []⟩ (fun d hd => hd) (by simp) x hv
  have hnodupF : (get_generation_order tables).Nodup := hInvF.1
  have hperm : (get_generation_order tables).Perm (keysOf tables) := by
    rw [List.perm_iff_count]
    intro a
    by_cases ha : a ∈ keysOf tables
    · rw [List.count_eq_one_of_mem hnodupF (hkeysF a ha),
        List.count_eq_one_of_mem hnodup ha]
    · rw [List.count_eq_zero_of_not_mem (fun hc => ha (hsubF a hc)),
        List.count_eq_zero_of_not_mem ha]
  exact ⟨hperm, fun n hn => List.count_eq_one_of_mem hnodupF (hkeysF n hn)⟩

/-- Witness for C3 at a self-referencing table: the order contains the table
exactly once. -/
theorem generation_order_complete_witness :
    (get_generation_order
        [("t", { name := "t"
               , foreign_keys := [{ column := "a", referenced_table := "t"
                                  , referenced_column := "a" }] })]).Perm
      (keysOf
        [("t", { name := "t"
               , foreign_keys := [{ column := "a", referenced_table := "t"
                                  , referenced_column := "a" }] })])
    ∧ (get_generation_order
        [("t", { name := "t"
               , foreign_keys := [{ column := "a", referenced_table := "t"
                                  , referenced_column := "a" }] })]).count "t" = 1 := by
  have h := generation_order_complete
    [("t", { name := "t"
           , foreign_keys := [{ column := "a", referenced_table := "t"
                              , referenced_column := "a" }] })] (by decide)
  exact ⟨h.1, h.2 "t" (by decide)⟩

/-! ## C1: parent-before-child for acyclic schemas -/

/-- C1: whenever the foreign-key dependency graph is acyclic (witnessed by a
rank function strictly decreasing along the edges, which exists exactly for
acyclic finite graphs), every foreign key `T.c → R.rc` whose referenced table
`R` is present in the mapping puts `R` at a strictly smaller index than `T` in
the generation order; foreign keys referencing absent tables impose no
constraint (they are filtered out of `depsOf` and never traversed). -/
theorem generation_order_topological (tables : TableMap) (rank : String → Nat)
    (hrank : ∀ t r, r ∈ depsOf tables t → rank r < rank t)
    (T : String) (tbl : Table) (fk : ForeignKey)
    (hT : List.lookup T tables = some tbl)
    (hfk : fk ∈ tbl.foreign_keys)
    (hR : fk.referenced_table ∈ keysOf tables) :
    fk.referenced_table ∈ get_generation_order tables
    ∧ T ∈ get_generation_order tables
    ∧ List.indexOf fk.referenced_table (get_generation_order tables)
        < List.indexOf T (get_generation_order tables) := by
  have hdep : fk.referenced_table ∈ depsOf tables T := by
    unfold depsOf
    rw [hT]
    exact List.mem_map.mpr ⟨fk, List.mem_filter.mpr ⟨hfk, by simpa using hR⟩, rfl⟩
  have hTk : T ∈ keysOf tables := mem_keys_of_lookup tables hT
  have hInv0 : VisitInv [] (⟨[], []⟩ : VisitState) :=
    ⟨List.nodup_nil, by simp, by simp⟩
  have hTopo0 : Topo tables ([] : List String) := by
    intro a b _ hmem
    simp at hmem
  have hfuel0 : unvisitedCount tables (⟨[], []⟩ : VisitState)
      < (keysOf tables).length + 1 := by
    unfold unvisitedCount
    have heq : ((keysOf tables).filter fun k => !(([] : List String).contains k))
        = keysOf tables := by
      apply List.filter_eq_self.mpr
      intro a _
      rfl
    rw [heq]
    omega
  have hfold := visitList_topo tables rank ((keysOf tables).length + 1)
    (visit_topo tables rank hrank ((keysOf tables).length + 1))
    (keysOf tables) [] ⟨[], []⟩ hInv0 hTopo0
    (by intro d _ x hx; simp at hx)
    (fun d _ hh => absurd hh (lt_irrefl _))
    (fun d hd => hd) hfuel0
  have hTopoF : Topo tables (get_generation_order tables) := hfold.1
  have hTmem : T ∈ get_generation_order tables := hfold.2 T hTk
  obtain ⟨hRmem, hidx⟩ := hTopoF T fk.referenced_table hdep hTmem
  exact ⟨hRmem, hTmem, hidx⟩

/-- Witness for C1 at a concrete two-table schema with an edge `b → a` and the
rank function witnessing acyclicity. -/
theorem generation_order_topological_witness :
    "a" ∈ get_generation_order
        [("a", { name := "a" }),
         ("b", { name := "b"
               , foreign_keys := [{ column := "a_id", referenced_table := "a"
                                  , referenced_column := "id" }] })]
    ∧ "b" ∈ get_generation_order
        [("a", { name := "a" }),
         ("b", { name := "b"
               , foreign_keys := [{ column := "a_id", referenced_table := "a"
                                  , referenced_column := "id" }] })]
    ∧ List.indexOf "a" (get_generation_order
        [("a", { name := "a" }),
         ("b", { name := "b"
               , foreign_keys := [{ column := "a_id", referenced_table := "a"
                                  , referenced_column := "id" }] })])
      < List.indexOf "b" (get_generation_order
        [("a", { name := "a" }),
         ("b", { name := "b"
               , foreign_keys := [{ column := "a_id", referenced_table := "a"
                                  , referenced_column := "id" }] })]) :=
  generation_order_topological
    [("a", { name := "a" }),
     ("b", { name := "b"
           , foreign_keys := [{ column := "a_id", referenced_table := "a"
                              , referenced_column := "id" }] })]
    (fun s => if s = "b" then 1 else 0)
    (rank_of_bounded _ _ (by decide))
    "b"
    { name := "b"
    , foreign_keys := [{ column := "a_id", referenced_table := "a"
                       , referenced_column := "id" }] }
    { column := "a_id", referenced_table := "a", referenced_column := "id" }
    (by decide) (by decide) (by decide)
